import Mathlib

/-!
Verification of the utility module of the MAPS repository (`utils/utils.py`):
ranking metrics (`dcg_score`, `ndcg_score`, `hit_score`, `mrr_score`), the
array padding helper `pad_and_stack`, and `format_time`.

Vectors are modelled as lists of rationals (`List ℚ`); the real-valued
metrics (DCG, NDCG) land in `ℝ` because of `log2` and real exponentiation.
`np.argsort` is modelled as a stable ascending insertion sort of the indices
`0, …, n-1` by score; `np.argsort(s)[::-1]` is its reversal.
-/

namespace MAPS

/-- One insertion step of the stable ascending index sort: index `i` goes
after every already-placed index whose score is `≤` its own. -/
def insertIdx (s : List ℚ) (i : ℕ) : List ℕ → List ℕ
  | [] => [i]
  | j :: rest => if s.getD j 0 ≤ s.getD i 0 then j :: insertIdx s i rest else i :: j :: rest

/-- `np.argsort(s)`: the indices `0, …, s.length - 1` sorted by ascending
score (stable: equal scores keep index order). -/
def argsort (s : List ℚ) : List ℕ :=
  (List.range s.length).foldl (fun acc i => insertIdx s i acc) []

/-- `np.argsort(s)[::-1]`: candidate indices by descending score. -/
def argsortDesc (s : List ℚ) : List ℕ :=
  (argsort s).reverse

/-- `dcg_score(y_true, y_score, k)` from `utils/utils.py`:
`k = min(np.shape(y_true)[-1], k)`, `order = np.argsort(y_score)[::-1]`,
`y_true = np.take(y_true, order[:k])`, `gains = 2 ** y_true - 1`,
`discounts = np.log2(np.arange(len(y_true)) + 2)`,
returns `np.sum(gains / discounts)`. -/
noncomputable def dcg_score (y_true y_score : List ℚ) (k : ℕ) : ℝ :=
  let k2 := min y_true.length k
  let order := argsortDesc y_score
  let taken := (order.take k2).map (fun i => y_true.getD i 0)
  let gains := taken.map (fun t => (2 : ℝ) ^ ((t : ℚ) : ℝ) - 1)
  let discounts := (List.range taken.length).map (fun (p : ℕ) => Real.logb 2 ((p : ℝ) + 2))
  (List.zipWith (fun g d => g / d) gains discounts).sum

/-- `ndcg_score(y_true, y_score, k)` from `utils/utils.py`:
`best = dcg_score(y_true, y_true, k)`, `actual = dcg_score(y_true, y_score, k)`,
returns `actual / best`. -/
noncomputable def ndcg_score (y_true y_score : List ℚ) (k : ℕ) : ℝ :=
  let best := dcg_score y_true y_true k
  let actual := dcg_score y_true y_score k
  actual / best

/-- `hit_score(y_true, y_score, k)` from `utils/utils.py`:
`ground_truth = np.where(y_true == 1)[0]`, `argsort = np.argsort(y_score)[::-1][:k]`,
returns 1 as soon as some index of `argsort` lies in `ground_truth`, else 0. -/
def hit_score (y_true y_score : List ℚ) (k : ℕ) : ℕ :=
  let ground_truth := (List.range y_true.length).filter (fun i => decide (y_true.getD i 0 = 1))
  let argsortK := (argsortDesc y_score).take k
  if argsortK.any (fun idx => ground_truth.contains idx) then 1 else 0

/-- `mrr_score(y_true, y_score)` from `utils/utils.py`:
`order = np.argsort(y_score)[::-1]`, `y_true = np.take(y_true, order)`,
`rr_score = y_true / (np.arange(len(y_true)) + 1)`,
returns `np.sum(rr_score) / np.sum(y_true)` (both over the permuted vector). -/
def mrr_score (y_true y_score : List ℚ) : ℚ :=
  let order := argsortDesc y_score
  let y_true2 := order.map (fun i => y_true.getD i 0)
  let rr_score := List.zipWith (fun t p => t / p) y_true2
    ((List.range y_true2.length).map (fun (p : ℕ) => (p : ℚ) + 1))
  rr_score.sum / y_true2.sum

/-- A numpy array argument of `pad_and_stack`: either 1-dimensional (one row
of numbers) or 2-dimensional (a list of rows). -/
inductive NpArray where
  | d1 (row : List ℚ)
  | d2 (rows : List (List ℚ))
deriving DecidableEq

/-- `array.ndim`. -/
def ndim : NpArray → ℕ
  | .d1 _ => 1
  | .d2 _ => 2

/-- `array[np.newaxis, :]`: a 1-D array becomes a single-row 2-D array. -/
def newaxisRow : NpArray → NpArray
  | .d1 r => .d2 [r]
  | .d2 rs => .d2 rs

/-- The first loop of `pad_and_stack` (`utils/utils.py` lines 17-19): every
1-D entry of the list is replaced, in place, by its single-row 2-D version.
This is the state of the caller's list after the call. -/
def promoteLoop (arrays : List NpArray) : List NpArray :=
  arrays.map (fun array => if ndim array = 1 then newaxisRow array else array)

/-- `array.shape[-1]`: the column count (for a 2-D model, of its first row;
numpy arrays are rectangular). -/
def lastDim : NpArray → ℕ
  | .d1 r => r.length
  | .d2 rs => (rs.headD []).length

/-- The rows of a (promoted) array, for `np.vstack`. -/
def rowsOf : NpArray → List (List ℚ)
  | .d1 r => [r]
  | .d2 rs => rs

/-- The second loop of `pad_and_stack`: if the array has fewer than
`max_cols` columns it is `np.hstack`-ed with an `array.shape[0] × diff`
block of `pad_value`. -/
def padArray (maxCols : ℕ) (pad : ℚ) (a : NpArray) : List (List ℚ) :=
  let current_cols := lastDim a
  if current_cols < maxCols then
    (rowsOf a).map (fun r => r ++ List.replicate (maxCols - current_cols) pad)
  else rowsOf a

/-- `pad_and_stack(arrays, pad_value)` from `utils/utils.py`: promote 1-D
entries in place, take the max of `array.shape[-1]` over the entries, pad
each entry on the right up to that width, `np.vstack` the results. -/
def pad_and_stack (arrays : List NpArray) (pad_value : ℚ) : List (List ℚ) :=
  let arrays2 := promoteLoop arrays
  let max_cols := (arrays2.map lastDim).foldl max 0
  ((arrays2.map (padArray max_cols pad_value)).flatten)

/-- Python `divmod(a, b)` on numbers: `(a // b, a % b)` with a floored
quotient and `a - ⌊a / b⌋ * b` as remainder. -/
def divmodQ (a b : ℚ) : ℚ × ℚ :=
  ((⌊a / b⌋ : ℤ), a - (⌊a / b⌋ : ℤ) * b)

/-- Python `int(q)` for the (integral) quotients produced by `divmod`:
truncation toward zero. -/
def intPy (q : ℚ) : ℤ :=
  if 0 ≤ q then ⌊q⌋ else -⌊-q⌋

/-- Round half to even at two decimal places: the integer `⌊q * 100⌉` as
`"{q:.2f}"` computes it. -/
def rnd2 (q : ℚ) : ℤ :=
  let x := q * 100
  let f := ⌊x⌋
  if x - f < 1 / 2 then f
  else if 1 / 2 < x - f then f + 1
  else if f % 2 = 0 then f else f + 1

/-- Python `f"{q:.2f}"`: two decimal places, half-to-even rounding. -/
def fmt2 (q : ℚ) : String :=
  let c := rnd2 q
  let sign := if c < 0 then "-" else ""
  let n := c.natAbs
  sign ++ toString (n / 100) ++ "." ++ toString (n % 100 / 10) ++ toString (n % 10)

/-- `format_time(seconds)` from `utils/utils.py`: successive `divmod` by
86400, 3600 and 60, rendered as `f"{int(days)}d {int(hours)}h {int(minutes)}m {seconds:.2f}s"`. -/
def format_time (seconds : ℚ) : String :=
  let dr := divmodQ seconds 86400
  let hr := divmodQ dr.2 3600
  let ms := divmodQ hr.2 60
  toString (intPy dr.1) ++ "d " ++ toString (intPy hr.1) ++ "h " ++
    toString (intPy ms.1) ++ "m " ++ fmt2 ms.2 ++ "s"

/-! ### Definitions written from the specification's words, for the
refinement claims. -/

/-- Modelled on the spec's sentence for `dcg_score`: sort candidate indices
by descending score, keep the first `min(k, length)`, gather ground truth,
and sum `(2^relevance - 1) / log2(position + 2)` over the kept zero-based
positions. -/
noncomputable def dcgSpec (y_true y_score : List ℚ) (k : ℕ) : ℝ :=
  ∑ p ∈ Finset.range (min k y_true.length),
    ((2 : ℝ) ^ ((y_true.getD ((argsortDesc y_score).getD p 0) 0 : ℚ) : ℝ) - 1) /
      Real.logb 2 ((p : ℝ) + 2)

/-- Modelled on the spec's sentence for `mrr_score`: relevance over
`rank + 1` summed over all descending-score positions, divided by the total
ground-truth relevance `sum(y_true)`. -/
def mrrSpec (y_true y_score : List ℚ) : ℚ :=
  (∑ p ∈ Finset.range y_true.length,
      y_true.getD ((argsortDesc y_score).getD p 0) 0 / ((p : ℚ) + 1)) /
    (∑ i ∈ Finset.range y_true.length, y_true.getD i 0)

/-- Modelled on the spec's sentence for `pad_and_stack`: promote every 1-D
array to a single-row 2-D array, compute the maximum column count, right-pad
every row with the pad value up to that width, and vertically concatenate
all rows. -/
def padAndStackSpec (arrays : List NpArray) (pad_value : ℚ) : List (List ℚ) :=
  let promoted := arrays.map (fun a => rowsOf (newaxisRow a))
  let maxCols := ((arrays.map lastDim).foldl max 0)
  (promoted.map (fun rs => rs.map (fun r => r ++ List.replicate (maxCols - r.length) pad_value))).flatten

/-- Modelled on the spec's sentence for `format_time`: days, hours, minutes
and seconds obtained by successive `divmod` with 86400, 3600 and 60, the
seconds printed with two decimal places. -/
def formatTimeSpec (s : ℚ) : String :=
  let days := ⌊s / 86400⌋
  let afterDays := s - days * 86400
  let hours := ⌊afterDays / 3600⌋
  let afterHours := afterDays - hours * 3600
  let minutes := ⌊afterHours / 60⌋
  let secs := afterHours - minutes * 60
  toString days ++ "d " ++ toString hours ++ "h " ++ toString minutes ++ "m " ++
    fmt2 secs ++ "s"

/-! ### Basic properties of the argsort embedding -/

theorem insertIdx_perm (s : List ℚ) (i : ℕ) (l : List ℕ) :
    (insertIdx s i l).Perm (i :: l) := by
  induction l with
  | nil => exact List.Perm.refl _
  | cons j rest ih =>
    by_cases h : s.getD j 0 ≤ s.getD i 0
    · simp only [insertIdx, if_pos h]
      exact ((ih.cons j).trans (List.Perm.swap i j rest))
    · simp only [insertIdx, if_neg h]
      exact List.Perm.refl _

theorem foldl_insertIdx_perm (s : List ℚ) :
    ∀ (l acc : List ℕ), (l.foldl (fun acc i => insertIdx s i acc) acc).Perm (l ++ acc) := by
  intro l
  induction l with
  | nil => intro acc; simp
  | cons i rest ih =>
    intro acc
    have h1 := ih (insertIdx s i acc)
    have h2 : (rest ++ insertIdx s i acc).Perm (rest ++ (i :: acc)) :=
      List.Perm.append_left rest (insertIdx_perm s i acc)
    have h3 : (rest ++ (i :: acc)).Perm (i :: (rest ++ acc)) := List.perm_middle
    simpa using (h1.trans (h2.trans h3))

theorem argsort_perm (s : List ℚ) : (argsort s).Perm (List.range s.length) := by
  simpa using foldl_insertIdx_perm s (List.range s.length) []

theorem argsort_length (s : List ℚ) : (argsort s).length = s.length := by
  simpa using (argsort_perm s).length_eq

theorem argsortDesc_perm (s : List ℚ) : (argsortDesc s).Perm (List.range s.length) := by
  exact (List.reverse_perm (argsort s)).trans (argsort_perm s)

theorem argsortDesc_length (s : List ℚ) : (argsortDesc s).length = s.length := by
  simpa using (argsortDesc_perm s).length_eq

theorem mem_argsortDesc {s : List ℚ} {i : ℕ} (h : i ∈ argsortDesc s) : i < s.length := by
  have := (argsortDesc_perm s).mem_iff.mp h
  simpa using this

/-! ### getD and sum bridging lemmas -/

theorem getD_map_of_lt {α β : Type*} (f : α → β) (l : List α) {p : ℕ}
    (hp : p < l.length) (d : β) (d0 : α) : (l.map f).getD p d = f (l.getD p d0) := by
  rw [List.getD_eq_getElem?_getD, List.getElem?_map, List.getD_eq_getElem?_getD,
    List.getElem?_eq_getElem hp]
  simp

theorem getD_take_of_lt {α : Type*} (l : List α) {p k : ℕ} (hp : p < k) (d : α) :
    (l.take k).getD p d = l.getD p d := by
  rw [List.getD_eq_getElem?_getD, List.getD_eq_getElem?_getD, List.getElem?_take_of_lt hp]

theorem getD_mem_of_lt {α : Type*} (l : List α) {p : ℕ} (hp : p < l.length) (d : α) :
    l.getD p d ∈ l := by
  rw [List.getD_eq_getElem l d hp]
  exact List.getElem_mem hp

theorem sum_zipWith_map_range {α γ : Type*} [AddCommMonoid γ]
    (f : α → γ → γ) (a0 : α) :
    ∀ (l : List α) (g : ℕ → γ),
      (List.zipWith f l ((List.range l.length).map g)).sum
        = ∑ p ∈ Finset.range l.length, f (l.getD p a0) (g p) := by
  intro l
  induction l with
  | nil => intro g; simp
  | cons a l ih =>
    intro g
    rw [List.length_cons, List.range_succ_eq_map, List.map_cons, List.map_map,
      List.zipWith_cons_cons, List.sum_cons, Finset.sum_range_succ']
    simp only [List.getD_cons_zero, List.getD_cons_succ, Function.comp_def,
      Nat.succ_eq_add_one]
    rw [ih (fun p => g (p + 1))]
    exact add_comm _ _

theorem list_sum_range_map {γ : Type*} [AddCommMonoid γ] (f : ℕ → γ) (n : ℕ) :
    ((List.range n).map f).sum = ∑ i ∈ Finset.range n, f i := by
  induction n with
  | zero => simp
  | succ n ih =>
    rw [List.range_succ, List.map_append, List.sum_append, Finset.sum_range_succ, ih]
    simp

/-! ### C1: `dcg_score` matches the spec's closed formula -/

theorem dcg_score_eq_dcgSpec (y_true y_score : List ℚ) (k : ℕ)
    (hlen : y_true.length = y_score.length) :
    dcg_score y_true y_score k = dcgSpec y_true y_score k := by
  simp only [dcg_score, dcgSpec]
  set order := argsortDesc y_score with horder
  set tg : ℕ → ℚ := fun i => y_true.getD i 0 with htg
  set taken := (order.take (min y_true.length k)).map tg with htaken
  set G : ℚ → ℝ := fun t => (2 : ℝ) ^ ((t : ℚ) : ℝ) - 1 with hG
  have hlen_order : order.length = y_true.length := by
    rw [horder, argsortDesc_length, hlen]
  have hlen_take : (order.take (min y_true.length k)).length = min k y_true.length := by
    rw [List.length_take, hlen_order]; omega
  have hlen_taken : taken.length = min k y_true.length := by
    rw [htaken, List.length_map, hlen_take]
  have hzip := sum_zipWith_map_range (fun g d => g / d) (0 : ℝ) (taken.map G)
    (fun (p : ℕ) => Real.logb 2 ((p : ℝ) + 2))
  rw [List.length_map] at hzip
  rw [hzip, hlen_taken]
  apply Finset.sum_congr rfl
  intro p hp
  have hp2 : p < min k y_true.length := Finset.mem_range.mp hp
  have hpt : p < taken.length := by rw [hlen_taken]; exact hp2
  have hptake : p < (order.take (min y_true.length k)).length := by
    rw [hlen_take]; exact hp2
  have h1 : (taken.map G).getD p 0 = G (taken.getD p 0) := getD_map_of_lt G taken hpt 0 0
  have h2 : taken.getD p 0 = tg ((order.take (min y_true.length k)).getD p 0) := by
    rw [htaken]; exact getD_map_of_lt tg _ hptake 0 0
  have h3 : (order.take (min y_true.length k)).getD p 0 = order.getD p 0 :=
    getD_take_of_lt order (by omega) 0
  rw [h1, h2, h3]

/-! ### C3: `mrr_score` matches the spec's closed formula -/

theorem mrr_score_eq_mrrSpec (y_true y_score : List ℚ)
    (hlen : y_true.length = y_score.length) :
    mrr_score y_true y_score = mrrSpec y_true y_score := by
  simp only [mrr_score, mrrSpec]
  set order := argsortDesc y_score with horder
  set tg : ℕ → ℚ := fun i => y_true.getD i 0 with htg
  have hlen_order : order.length = y_true.length := by
    rw [horder, argsortDesc_length, hlen]
  have hzip := sum_zipWith_map_range (fun t p => t / p) (0 : ℚ) (order.map tg)
    (fun (p : ℕ) => (p : ℚ) + 1)
  rw [hzip, List.length_map, hlen_order]
  have hperm : (order.map tg).Perm ((List.range y_score.length).map tg) :=
    (argsortDesc_perm y_score).map tg
  have hsum : (order.map tg).sum = ∑ i ∈ Finset.range y_true.length, tg i := by
    rw [hperm.sum_eq, list_sum_range_map, hlen]
  rw [hsum]
  congr 1
  apply Finset.sum_congr rfl
  intro p hp
  have hp2 : p < (order.map tg).length := by
    rw [List.length_map, hlen_order]; exact Finset.mem_range.mp hp
  rw [getD_map_of_lt tg order (by simpa using hp2) 0 0]

/-! ### C4: `hit_score` hits exactly when a top-k index is relevant -/

theorem hit_score_characterization (y_true y_score : List ℚ) (k : ℕ)
    (hlen : y_true.length = y_score.length) :
    (hit_score y_true y_score k = 1 ↔
      ∃ i ∈ (argsortDesc y_score).take k, y_true.getD i 0 = 1)
    ∧ ((¬ ∃ i ∈ (argsortDesc y_score).take k, y_true.getD i 0 = 1) →
        hit_score y_true y_score k = 0)
    ∧ ((∀ i < y_true.length, y_true.getD i 0 = 0) → hit_score y_true y_score k = 0) := by
  have cond_iff : (((argsortDesc y_score).take k).any
      (fun idx => ((List.range y_true.length).filter
        (fun i => decide (y_true.getD i 0 = 1))).contains idx) = true)
      ↔ ∃ i ∈ (argsortDesc y_score).take k, y_true.getD i 0 = 1 := by
    simp only [List.any_eq_true, List.contains, List.elem_iff, List.mem_filter,
      List.mem_range, decide_eq_true_eq]
    constructor
    · rintro ⟨i, hi, _, h1⟩
      exact ⟨i, hi, h1⟩
    · rintro ⟨i, hi, h1⟩
      refine ⟨i, hi, ?_, h1⟩
      have := mem_argsortDesc (List.mem_of_mem_take hi)
      omega
  refine ⟨?_, ?_, ?_⟩
  · simp only [hit_score]
    constructor
    · intro h
      by_contra hne
      rw [if_neg (fun hc => hne (cond_iff.mp hc))] at h
      exact absurd h (by norm_num)
    · intro hP
      rw [if_pos (cond_iff.mpr hP)]
  · intro hne
    simp only [hit_score]
    rw [if_neg (fun hc => hne (cond_iff.mp hc))]
  · intro hzero
    have hne : ¬ ∃ i ∈ (argsortDesc y_score).take k, y_true.getD i 0 = 1 := by
      rintro ⟨i, hi, h1⟩
      have hlt : i < y_true.length := by
        have := mem_argsortDesc (List.mem_of_mem_take hi)
        omega
      rw [hzero i hlt] at h1
      exact absurd h1 (by norm_num)
    simp only [hit_score]
    rw [if_neg (fun hc => hne (cond_iff.mp hc))]

/-! ### C7: argsort, hence DCG, sees only the rank order of the scores -/

theorem insertIdx_map_strictMono {f : ℚ → ℚ} (hf : StrictMono f) (s : List ℚ)
    {i : ℕ} (hi : i < s.length) :
    ∀ {l : List ℕ}, (∀ j ∈ l, j < s.length) →
      insertIdx (s.map f) i l = insertIdx s i l := by
  intro l
  induction l with
  | nil => intro _; rfl
  | cons j rest ih =>
    intro hl
    have hj : j < s.length := hl j (List.mem_cons_self j rest)
    have hcond : ((s.map f).getD j 0 ≤ (s.map f).getD i 0) ↔ (s.getD j 0 ≤ s.getD i 0) := by
      rw [getD_map_of_lt f s hj 0 0, getD_map_of_lt f s hi 0 0]
      exact hf.le_iff_le
    simp only [insertIdx]
    exact if_congr hcond
      (by rw [ih (fun x hx => hl x (List.mem_cons_of_mem j hx))]) rfl

theorem foldl_insertIdx_map {f : ℚ → ℚ} (hf : StrictMono f) (s : List ℚ) :
    ∀ (l acc : List ℕ), (∀ j ∈ l, j < s.length) → (∀ j ∈ acc, j < s.length) →
      l.foldl (fun a i => insertIdx (s.map f) i a) acc
        = l.foldl (fun a i => insertIdx s i a) acc := by
  intro l
  induction l with
  | nil => intro acc _ _; rfl
  | cons i rest ih =>
    intro acc hl hacc
    have hi : i < s.length := hl i (List.mem_cons_self i rest)
    simp only [List.foldl_cons]
    rw [insertIdx_map_strictMono hf s hi hacc]
    exact ih (insertIdx s i acc) (fun j hj => hl j (List.mem_cons_of_mem i hj))
      (fun j hj => by
        rcases List.mem_cons.mp ((insertIdx_perm s i acc).mem_iff.mp hj) with h | h
        · exact h ▸ hi
        · exact hacc j h)

theorem argsort_map_strictMono {f : ℚ → ℚ} (hf : StrictMono f) (s : List ℚ) :
    argsort (s.map f) = argsort s := by
  unfold argsort
  rw [List.length_map]
  exact foldl_insertIdx_map hf s (List.range s.length) []
    (fun j hj => List.mem_range.mp hj) (fun j hj => absurd hj (List.not_mem_nil j))

theorem argsortDesc_map_strictMono {f : ℚ → ℚ} (hf : StrictMono f) (s : List ℚ) :
    argsortDesc (s.map f) = argsortDesc s := by
  unfold argsortDesc
  rw [argsort_map_strictMono hf]

theorem dcg_score_map_strictMono {f : ℚ → ℚ} (hf : StrictMono f)
    (y_true y_score : List ℚ) (k : ℕ) :
    dcg_score y_true (y_score.map f) k = dcg_score y_true y_score k := by
  simp only [dcg_score, argsortDesc_map_strictMono hf]

/-! ### C8: NDCG of an all-ones ground truth against itself -/

theorem dcgSpec_self_pos_of_ones (y_true : List ℚ) (k : ℕ) (hne : y_true ≠ [])
    (hones : ∀ i < y_true.length, y_true.getD i 0 = 1) (hk : 0 < k) :
    0 < dcgSpec y_true y_true k := by
  have hn : 0 < y_true.length := List.length_pos.mpr hne
  unfold dcgSpec
  apply Finset.sum_pos
  · intro p hp
    have hp2 : p < min k y_true.length := Finset.mem_range.mp hp
    have hplt : p < (argsortDesc y_true).length := by
      rw [argsortDesc_length]; omega
    have hidx : (argsortDesc y_true).getD p 0 < y_true.length :=
      mem_argsortDesc (getD_mem_of_lt (argsortDesc y_true) hplt 0)
    rw [hones _ hidx, Rat.cast_one, Real.rpow_one]
    have hlog : 0 < Real.logb 2 ((p : ℝ) + 2) := by
      apply Real.logb_pos (by norm_num)
      have hcast : (0 : ℝ) ≤ (p : ℝ) := Nat.cast_nonneg p
      linarith
    have h21 : (2 : ℝ) - 1 = 1 := by norm_num
    rw [h21]
    positivity
  · exact Finset.nonempty_range_iff.mpr (by omega)

theorem ndcg_score_all_ones (y_true : List ℚ) (k : ℕ) (hne : y_true ≠ [])
    (hones : ∀ i < y_true.length, y_true.getD i 0 = 1) (hk : 0 < k) :
    ndcg_score y_true y_true k = 1 := by
  have hne0 : dcg_score y_true y_true k ≠ 0 := by
    rw [dcg_score_eq_dcgSpec y_true y_true k rfl]
    exact ne_of_gt (dcgSpec_self_pos_of_ones y_true k hne hones hk)
  simp only [ndcg_score]
  exact div_self hne0

/-! ### C6, C10: `pad_and_stack` and its in-place promotion loop -/

theorem promoteLoop_eq_map_newaxis (arrays : List NpArray) :
    promoteLoop arrays = arrays.map newaxisRow := by
  unfold promoteLoop
  apply List.map_congr_left
  intro a _
  cases a <;> rfl

theorem lastDim_newaxisRow (a : NpArray) : lastDim (newaxisRow a) = lastDim a := by
  cases a <;> rfl

theorem pad_and_stack_eq_spec (arrays : List NpArray) (pad_value : ℚ)
    (hrect : ∀ a ∈ arrays, ∀ r ∈ rowsOf (newaxisRow a), r.length = lastDim a) :
    pad_and_stack arrays pad_value = padAndStackSpec arrays pad_value := by
  simp only [pad_and_stack, padAndStackSpec, promoteLoop_eq_map_newaxis]
  have hdims : (arrays.map newaxisRow).map lastDim = arrays.map lastDim := by
    rw [List.map_map]
    apply List.map_congr_left
    intro a _
    exact lastDim_newaxisRow a
  rw [hdims, List.map_map, List.map_map]
  congr 1
  apply List.map_congr_left
  intro a ha
  have hr := hrect a ha
  set M := (arrays.map lastDim).foldl max 0 with hM
  show padArray M pad_value (newaxisRow a)
      = (rowsOf (newaxisRow a)).map
          (fun r => r ++ List.replicate (M - r.length) pad_value)
  unfold padArray
  rw [lastDim_newaxisRow a]
  by_cases hc : lastDim a < M
  · rw [if_pos hc]
    apply List.map_congr_left
    intro r hrr
    rw [hr r hrr]
  · rw [if_neg hc]
    symm
    have hrows : ∀ r ∈ rowsOf (newaxisRow a),
        r ++ List.replicate (M - r.length) pad_value = r := by
      intro r hrr
      have hge : M ≤ r.length := by rw [hr r hrr]; omega
      rw [Nat.sub_eq_zero_of_le hge, List.replicate_zero, List.append_nil]
    rw [List.map_congr_left hrows, List.map_id']

theorem promoteLoop_getElem_d1 (arrays : List NpArray) (p : ℕ) (row : List ℚ)
    (hp : arrays[p]? = some (NpArray.d1 row)) :
    (promoteLoop arrays)[p]? = some (NpArray.d2 [row]) := by
  simp only [promoteLoop, List.getElem?_map, hp]
  rfl

theorem promoteLoop_getElem_d2 (arrays : List NpArray) (p : ℕ) (rows : List (List ℚ))
    (hp : arrays[p]? = some (NpArray.d2 rows)) :
    (promoteLoop arrays)[p]? = some (NpArray.d2 rows) := by
  simp only [promoteLoop, List.getElem?_map, hp]
  rfl

theorem promoteLoop_ne_of_mem_d1 (arrays : List NpArray) (r : List ℚ)
    (h : NpArray.d1 r ∈ arrays) : promoteLoop arrays ≠ arrays := by
  obtain ⟨p, hp⟩ := List.getElem?_of_mem h
  intro heq
  have hd := promoteLoop_getElem_d1 arrays p r hp
  rw [heq, hp] at hd
  exact NpArray.noConfusion (Option.some.inj hd)

/-! ### C9: `format_time` -/

theorem intPy_intCast (z : ℤ) : intPy ((z : ℚ)) = z := by
  unfold intPy
  by_cases hz : (0 : ℚ) ≤ (z : ℚ)
  · rw [if_pos hz, Int.floor_intCast]
  · rw [if_neg hz, ← Int.cast_neg, Int.floor_intCast, neg_neg]

theorem format_time_eq_spec (s : ℚ) : format_time s = formatTimeSpec s := by
  simp only [format_time, formatTimeSpec, divmodQ, intPy_intCast]

/-! ## The claims -/

/-- C1: for every ground truth and score vector of the same length and every
positive `k`, `dcg_score` sorts candidate indices by descending score, keeps
the first `min(k, length)` of them, gathers the ground-truth relevance, and
returns the sum over kept positions of `(2^relevance - 1) / log2(pos + 2)`
with zero-based positions — the closed formula `dcgSpec`. -/
theorem dcg_score_formula (y_true y_score : List ℚ) (k : ℕ)
    (hlen : y_true.length = y_score.length) (hk : 0 < k) :
    dcg_score y_true y_score k = dcgSpec y_true y_score k :=
  dcg_score_eq_dcgSpec y_true y_score k hlen

theorem dcg_score_formula_witness :
    ([(1 : ℚ), 0] : List ℚ).length = ([(1 : ℚ)/2, 1/4] : List ℚ).length ∧ 0 < 2
    ∧ dcg_score [(1 : ℚ), 0] [(1 : ℚ)/2, 1/4] 2 = dcgSpec [(1 : ℚ), 0] [(1 : ℚ)/2, 1/4] 2 :=
  ⟨rfl, by decide, dcg_score_formula [(1 : ℚ), 0] [(1 : ℚ)/2, 1/4] 2 rfl (by decide)⟩

/-- C2: for vectors of the same length and positive `k`, `ndcg_score` is the
ratio of `dcg_score` on the given scores to `dcg_score` with the ground truth
as its own ideal score vector. -/
theorem ndcg_score_is_dcg_ratio (y_true y_score : List ℚ) (k : ℕ)
    (hlen : y_true.length = y_score.length) (hk : 0 < k) :
    ndcg_score y_true y_score k
      = dcg_score y_true y_score k / dcg_score y_true y_true k := rfl

theorem ndcg_score_is_dcg_ratio_witness :
    ([(1 : ℚ), 0] : List ℚ).length = ([(1 : ℚ)/2, 1/4] : List ℚ).length ∧ 0 < 2
    ∧ ndcg_score [(1 : ℚ), 0] [(1 : ℚ)/2, 1/4] 2
        = dcg_score [(1 : ℚ), 0] [(1 : ℚ)/2, 1/4] 2 / dcg_score [(1 : ℚ), 0] [(1 : ℚ), 0] 2 :=
  ⟨rfl, by decide, ndcg_score_is_dcg_ratio [(1 : ℚ), 0] [(1 : ℚ)/2, 1/4] 2 rfl (by decide)⟩

/-- C3: for vectors of the same length, `mrr_score` sorts all candidates by
descending score with no cutoff, sums `relevance / (rank + 1)` over all
zero-based ranks, and divides by the total ground-truth relevance — the
closed formula `mrrSpec` (the code divides by the sum of the permuted
vector, which equals `sum(y_true)` because argsort is a permutation). -/
theorem mrr_score_formula (y_true y_score : List ℚ)
    (hlen : y_true.length = y_score.length) :
    mrr_score y_true y_score = mrrSpec y_true y_score :=
  mrr_score_eq_mrrSpec y_true y_score hlen

theorem mrr_score_formula_witness :
    ([(1 : ℚ), 0] : List ℚ).length = ([(1 : ℚ)/2, 1/4] : List ℚ).length
    ∧ mrr_score [(1 : ℚ), 0] [(1 : ℚ)/2, 1/4] = mrrSpec [(1 : ℚ), 0] [(1 : ℚ)/2, 1/4] :=
  ⟨rfl, mrr_score_formula [(1 : ℚ), 0] [(1 : ℚ)/2, 1/4] rfl⟩

/-- C4: for vectors of the same length and positive `k`, `hit_score` returns
1 iff some index among the top `k` by descending score has ground-truth
label exactly 1, otherwise it returns 0; in particular it returns 0 whenever
the ground-truth vector is all zero, regardless of the scores. -/
theorem hit_score_top_k (y_true y_score : List ℚ) (k : ℕ)
    (hlen : y_true.length = y_score.length) (hk : 0 < k) :
    (hit_score y_true y_score k = 1 ↔
      ∃ i ∈ (argsortDesc y_score).take k, y_true.getD i 0 = 1)
    ∧ ((¬ ∃ i ∈ (argsortDesc y_score).take k, y_true.getD i 0 = 1) →
        hit_score y_true y_score k = 0)
    ∧ ((∀ i < y_true.length, y_true.getD i 0 = 0) → hit_score y_true y_score k = 0) :=
  hit_score_characterization y_true y_score k hlen

theorem hit_score_top_k_witness :
    ([(0 : ℚ), 1] : List ℚ).length = ([(1 : ℚ)/2, 1/4] : List ℚ).length ∧ 0 < 1
    ∧ ((hit_score [(0 : ℚ), 1] [(1 : ℚ)/2, 1/4] 1 = 1 ↔
        ∃ i ∈ (argsortDesc [(1 : ℚ)/2, 1/4]).take 1, ([(0 : ℚ), 1] : List ℚ).getD i 0 = 1)
      ∧ ((¬ ∃ i ∈ (argsortDesc [(1 : ℚ)/2, 1/4]).take 1,
            ([(0 : ℚ), 1] : List ℚ).getD i 0 = 1) →
          hit_score [(0 : ℚ), 1] [(1 : ℚ)/2, 1/4] 1 = 0)
      ∧ ((∀ i < ([(0 : ℚ), 1] : List ℚ).length, ([(0 : ℚ), 1] : List ℚ).getD i 0 = 0) →
          hit_score [(0 : ℚ), 1] [(1 : ℚ)/2, 1/4] 1 = 0)) :=
  ⟨rfl, by decide, hit_score_top_k [(0 : ℚ), 1] [(1 : ℚ)/2, 1/4] 1 rfl (by decide)⟩

/-- C6: `pad_and_stack` on a non-empty list of rectangular 1-D or 2-D
arrays promotes 1-D entries to single rows, right-pads every row with the
pad value up to the maximum column count and stacks all rows — the
spec-worded `padAndStackSpec`; and on the two 1-D arrays `[1,2]` and
`[3,4,5]` with pad value 0 it returns `[[1,2,0],[3,4,5]]`. -/
theorem pad_and_stack_spec_and_example :
    (∀ (arrays : List NpArray) (pad_value : ℚ), arrays ≠ [] →
      (∀ a ∈ arrays, ∀ r ∈ rowsOf (newaxisRow a), r.length = lastDim a) →
      pad_and_stack arrays pad_value = padAndStackSpec arrays pad_value)
    ∧ pad_and_stack [NpArray.d1 [1, 2], NpArray.d1 [3, 4, 5]] 0 = [[1, 2, 0], [3, 4, 5]] :=
  ⟨fun arrays pad_value _ hrect => pad_and_stack_eq_spec arrays pad_value hrect, rfl⟩

/-- C7: `dcg_score` is invariant under any strictly monotone rescaling of
the scores: rescaling preserves the rank order, hence the argsort, hence
the whole computation. -/
theorem dcg_score_rank_order_invariant (y_true y_score : List ℚ) (k : ℕ) (f : ℚ → ℚ)
    (hlen : y_true.length = y_score.length) (hk : 0 < k) (hf : StrictMono f) :
    dcg_score y_true (y_score.map f) k = dcg_score y_true y_score k :=
  dcg_score_map_strictMono hf y_true y_score k

theorem dcg_score_rank_order_invariant_witness :
    ([(1 : ℚ), 0] : List ℚ).length = ([(1 : ℚ)/2, 1/4] : List ℚ).length ∧ 0 < 2
    ∧ StrictMono (fun x : ℚ => 2 * x + 3)
    ∧ dcg_score [(1 : ℚ), 0] (([(1 : ℚ)/2, 1/4] : List ℚ).map (fun x : ℚ => 2 * x + 3)) 2
        = dcg_score [(1 : ℚ), 0] [(1 : ℚ)/2, 1/4] 2 :=
  ⟨rfl, by decide, fun a b hab => by dsimp only; linarith,
   dcg_score_rank_order_invariant [(1 : ℚ), 0] [(1 : ℚ)/2, 1/4] 2 (fun x : ℚ => 2 * x + 3)
     rfl (by decide) (fun a b hab => by dsimp only; linarith)⟩

/-- C8 (counterexample to the claim as stated): the empty ground-truth
vector vacuously has all entries equal to 1 and `1` is a positive `k`, yet
`ndcg_score` on it is `0/0 = 0`, not 1 (the Python code produces NaN there,
likewise different from 1). -/
theorem ndcg_score_empty_counterexample :
    (∀ i < ([] : List ℚ).length, ([] : List ℚ).getD i 0 = 1) ∧ 0 < 1
    ∧ ndcg_score ([] : List ℚ) ([] : List ℚ) 1 ≠ 1 := by
  refine ⟨by intro i hi; simp at hi, by decide, ?_⟩
  have h : dcg_score ([] : List ℚ) ([] : List ℚ) 1 = 0 := by
    simp [dcg_score, argsortDesc, argsort]
  simp [ndcg_score, h]

/-- C8 (amended): for every NON-EMPTY ground-truth vector whose entries all
equal 1 and every positive `k`, `ndcg_score(gt, gt, k) = 1`: the ideal DCG
is a sum of `min(k, n) ≥ 1` strictly positive terms, so the ratio is 1. -/
theorem ndcg_score_all_ones_eq_one (y_true : List ℚ) (k : ℕ) (hne : y_true ≠ [])
    (hones : ∀ i < y_true.length, y_true.getD i 0 = 1) (hk : 0 < k) :
    ndcg_score y_true y_true k = 1 :=
  ndcg_score_all_ones y_true k hne hones hk

theorem ndcg_score_all_ones_eq_one_witness :
    (([(1 : ℚ), 1] : List ℚ) ≠ [])
    ∧ (∀ i < ([(1 : ℚ), 1] : List ℚ).length, ([(1 : ℚ), 1] : List ℚ).getD i 0 = 1)
    ∧ 0 < 2
    ∧ ndcg_score [(1 : ℚ), 1] [(1 : ℚ), 1] 2 = 1 :=
  ⟨List.cons_ne_nil _ _,
   by
     intro i hi
     simp only [List.length_cons, List.length_nil] at hi
     interval_cases i <;> rfl,
   by decide,
   ndcg_score_all_ones_eq_one [(1 : ℚ), 1] 2 (List.cons_ne_nil _ _)
     (by
       intro i hi
       simp only [List.length_cons, List.length_nil] at hi
       interval_cases i <;> rfl)
     (by decide)⟩

/-- C9: `format_time(90061.5)` is `"1d 1h 1m 1.50s"`, and in general
`format_time` decomposes a duration by successive `divmod` with 86400,
3600 and 60 and prints the seconds with two decimal places — the
spec-worded `formatTimeSpec`. -/
theorem format_time_example_and_spec :
    format_time (90061.5 : ℚ) = "1d 1h 1m 1.50s"
    ∧ ∀ (s : ℚ), format_time s = formatTimeSpec s := by
  constructor
  · have h1 : divmodQ (90061.5 : ℚ) 86400 = ((1 : ℚ), (3661.5 : ℚ)) := by
      have h0 : (⌊(90061.5 : ℚ) / 86400⌋ : ℤ) = 1 := by norm_num
      rw [divmodQ, h0]
      norm_num
    have h2 : divmodQ (3661.5 : ℚ) 3600 = ((1 : ℚ), (61.5 : ℚ)) := by
      have h0 : (⌊(3661.5 : ℚ) / 3600⌋ : ℤ) = 1 := by norm_num
      rw [divmodQ, h0]
      norm_num
    have h3 : divmodQ (61.5 : ℚ) 60 = ((1 : ℚ), (1.5 : ℚ)) := by
      have h0 : (⌊(61.5 : ℚ) / 60⌋ : ℤ) = 1 := by norm_num
      rw [divmodQ, h0]
      norm_num
    have h4 : intPy (1 : ℚ) = 1 := by
      unfold intPy
      rw [if_pos (by norm_num : (0 : ℚ) ≤ 1)]
      exact Int.floor_one
    have h5 : fmt2 (1.5 : ℚ) = "1.50" := by
      have hr : rnd2 (1.5 : ℚ) = 150 := by
        have h0 : (⌊(1.5 : ℚ) * 100⌋ : ℤ) = 150 := by norm_num
        simp only [rnd2]
        rw [h0]
        norm_num
      simp only [fmt2, hr]
      rfl
    simp only [format_time, h1, h2, h3, h4, h5]
    rfl
  · exact format_time_eq_spec

/-- C10: the first loop of `pad_and_stack` mutates the caller's list: when
the list contains a 1-D array, the list after the loop (`promoteLoop`) is
different from the original, every 1-D entry has been replaced by its
promoted single-row 2-D version, and 2-D entries are untouched. -/
theorem promoteLoop_mutates (arrays : List NpArray) (r : List ℚ)
    (h : NpArray.d1 r ∈ arrays) :
    promoteLoop arrays ≠ arrays
    ∧ (∀ (p : ℕ) (row : List ℚ), arrays[p]? = some (NpArray.d1 row) →
        (promoteLoop arrays)[p]? = some (NpArray.d2 [row]))
    ∧ (∀ (p : ℕ) (rows : List (List ℚ)), arrays[p]? = some (NpArray.d2 rows) →
        (promoteLoop arrays)[p]? = some (NpArray.d2 rows)) :=
  ⟨promoteLoop_ne_of_mem_d1 arrays r h,
   promoteLoop_getElem_d1 arrays,
   promoteLoop_getElem_d2 arrays⟩

theorem promoteLoop_mutates_witness :
    NpArray.d1 [(1 : ℚ)] ∈ [NpArray.d1 [(1 : ℚ)], NpArray.d2 [[2]]]
    ∧ (promoteLoop [NpArray.d1 [(1 : ℚ)], NpArray.d2 [[2]]]
          ≠ [NpArray.d1 [(1 : ℚ)], NpArray.d2 [[2]]]
      ∧ (∀ (p : ℕ) (row : List ℚ),
          ([NpArray.d1 [(1 : ℚ)], NpArray.d2 [[2]]] : List NpArray)[p]? = some (NpArray.d1 row) →
          (promoteLoop [NpArray.d1 [(1 : ℚ)], NpArray.d2 [[2]]])[p]? = some (NpArray.d2 [row]))
      ∧ (∀ (p : ℕ) (rows : List (List ℚ)),
          ([NpArray.d1 [(1 : ℚ)], NpArray.d2 [[2]]] : List NpArray)[p]? = some (NpArray.d2 rows) →
          (promoteLoop [NpArray.d1 [(1 : ℚ)], NpArray.d2 [[2]]])[p]? = some (NpArray.d2 rows))) :=
  ⟨List.mem_cons_self _ _,
   promoteLoop_mutates [NpArray.d1 [(1 : ℚ)], NpArray.d2 [[2]]] [(1 : ℚ)]
     (List.mem_cons_self _ _)⟩

end MAPS
